import Mathlib

/-!
Shallow embedding of the shorelark feedforward neural-network library
(`libs/neural-network/src/lib.rs`).

Modelling choices:
* `f32` values are modelled as exact rationals (`ℚ`); the claims under
  study concern branch structure (ReLU clamping), vector shapes,
  composition order and randomness-draw order, none of which depend on
  rounding.
* The randomness source (`rng: &mut dyn RngCore` with `gen_range`) is
  modelled as an infinite stream of draws `g : ℕ → ℚ` together with a
  cursor `i : ℕ`; each `gen_range` call returns the draw at the cursor
  and advances it by one.  This makes draw order and draw consumption
  explicit and provable.
* The `assert_eq!` guard in `Neuron::propagate` (a panic on dimension
  mismatch) is modelled by returning `Option`: `none` is the fatal
  contract violation, `some` the returned value.
-/

/-- A neuron: an ordered weight vector and a bias (`f32` modelled as `ℚ`). -/
structure Neuron where
  weights : List ℚ
  bias : ℚ
deriving Repr, DecidableEq

/-- A layer: an ordered collection of neurons. -/
structure Layer where
  neurons : List Neuron
deriving Repr, DecidableEq

/-- A network: an ordered sequence of layers. -/
structure Network where
  layers : List Layer
deriving Repr, DecidableEq

/-- A topology descriptor: `pub struct LayerTopology`. -/
structure LayerTopology where
  input_neurons : ℕ
  output_neurons : ℕ
deriving Repr, DecidableEq

/-- One `rng.gen_range(-1.0..1.0)` call: return the draw under the cursor
and advance the cursor. -/
def genRange (g : ℕ → ℚ) (i : ℕ) : ℚ × ℕ :=
  (g i, i + 1)

/-- `(0..input_size).map(|_| rng.gen_range(-1.0..1.0)).collect()`:
draw `k` values left to right, threading the cursor. -/
def drawWeights (g : ℕ → ℚ) : ℕ → ℕ → List ℚ × ℕ
  | 0, i => ([], i)
  | k + 1, i =>
    let p := genRange g i
    let q := drawWeights g k p.2
    (p.1 :: q.1, q.2)

/-- `Neuron::random`: draw `input_size` weights, then the bias. -/
def Neuron.random (g : ℕ → ℚ) (input_size : ℕ) (i : ℕ) : Neuron × ℕ :=
  let w := drawWeights g input_size i
  let b := genRange g w.2
  (⟨w.1, b.1⟩, b.2)

/-- `(0..output_size).map(|_| Neuron::random(rng, input_size)).collect()`:
build `k` neurons in index order, threading the cursor. -/
def mkNeurons (g : ℕ → ℚ) (input_size : ℕ) : ℕ → ℕ → List Neuron × ℕ
  | 0, i => ([], i)
  | k + 1, i =>
    let p := Neuron.random g input_size i
    let q := mkNeurons g input_size k p.2
    (p.1 :: q.1, q.2)

/-- `Layer::random`. -/
def Layer.random (g : ℕ → ℚ) (input_size output_size : ℕ) (i : ℕ) :
    Layer × ℕ :=
  let p := mkNeurons g input_size output_size i
  (⟨p.1⟩, p.2)

/-- `layers.windows(2)` on a slice: the list of adjacent pairs. -/
def windowPairs (t : List LayerTopology) : List (LayerTopology × LayerTopology) :=
  t.zip t.tail

/-- The `.windows(2).map(|layers| Layer::random(rng, layers[0].output_neurons,
layers[1].input_neurons)).collect()` pipeline, threading the cursor. -/
def mkLayers (g : ℕ → ℚ) : List (LayerTopology × LayerTopology) → ℕ → List Layer × ℕ
  | [], i => ([], i)
  | p :: ps, i =>
    let l := Layer.random g p.1.output_neurons p.2.input_neurons i
    let q := mkLayers g ps l.2
    (l.1 :: q.1, q.2)

/-- `Network::random`. -/
def Network.random (g : ℕ → ℚ) (topology : List LayerTopology) (i : ℕ) :
    Network × ℕ :=
  let p := mkLayers g (windowPairs topology) i
  (⟨p.1⟩, p.2)

/-- `Network::new`. -/
def Network.new (layers : List Layer) : Network :=
  ⟨layers⟩

/-- `Neuron::propagate`: the `assert_eq!(inputs.len(), self.weights.len())`
guard, then the zip-multiply-sum dot product, then
`(self.bias + output).max(0.0)`. -/
def Neuron.propagate (n : Neuron) (inputs : List ℚ) : Option ℚ :=
  if inputs.length = n.weights.length then
    some (max (n.bias + (List.zipWith (fun input weight => input * weight) inputs n.weights).sum) 0)
  else
    none

/-- `self.neurons.iter().map(|neuron| neuron.propagate(&inputs)).collect()`,
with a `none` from any neuron aborting the whole call. -/
def propNeurons : List Neuron → List ℚ → Option (List ℚ)
  | [], _ => some []
  | n :: ns, inputs => do
    let v ← n.propagate inputs
    let vs ← propNeurons ns inputs
    pure (v :: vs)

/-- `Layer::propagate`. -/
def Layer.propagate (l : Layer) (inputs : List ℚ) : Option (List ℚ) :=
  propNeurons l.neurons inputs

/-- `self.layers.iter().fold(inputs, |inputs, layer| layer.propagate(inputs))`,
with a `none` from any layer aborting the whole call. -/
def propLayers : List Layer → List ℚ → Option (List ℚ)
  | [], inputs => some inputs
  | l :: ls, inputs => do
    let mid ← l.propagate inputs
    propLayers ls mid

/-- `Network::propagate`. -/
def Network.propagate (net : Network) (inputs : List ℚ) : Option (List ℚ) :=
  propLayers net.layers inputs

/-- Mathematical dot product of two equal-length vectors, used to state
the specification claims. -/
def dot (xs ws : List ℚ) : ℚ :=
  (List.zipWith (fun x w => x * w) xs ws).sum

/-- The per-boundary dimensions a window pair contributes: `output_neurons`
of the left entry and `input_neurons` of the right entry. -/
def pairDims (p : LayerTopology × LayerTopology) : ℕ × ℕ :=
  (p.1.output_neurons, p.2.input_neurons)

/-- A concrete draw stream used in the closed witness instances. -/
def gW : ℕ → ℚ := fun k => (k + 1 : ℚ) / 2

/-- The inline-test neuron of the repository: bias `0.5`, weights `[-0.3, 0.8]`. -/
def neuronT : Neuron := ⟨[-3/10, 4/5], 1/2⟩

/-- The inline-test input vector of the repository: `[0.5, 1.0]`. -/
def inputsT : List ℚ := [1/2, 1]

/-- A single-neuron layer built from the test neuron. -/
def layerT : Layer := ⟨[neuronT]⟩

/-- Topology entry `{input: 0, output: 4}`. -/
def topA : LayerTopology := ⟨0, 4⟩

/-- Topology entry `{input: 4, output: 3}`. -/
def topB : LayerTopology := ⟨4, 3⟩

/-- A two-entry topology. -/
def t1W : List LayerTopology := [⟨7, 4⟩, ⟨4, 3⟩]

/-- The same topology with only `input_neurons` of the first entry and
`output_neurons` of the last entry changed. -/
def t2W : List LayerTopology := [⟨9, 4⟩, ⟨4, 5⟩]

theorem drawWeights_eq (g : ℕ → ℚ) : ∀ (k i : ℕ),
    drawWeights g k i = ((List.range k).map fun j => g (i + j), i + k)
  | 0, i => by simp [drawWeights]
  | k + 1, i => by
    simp only [drawWeights, genRange, drawWeights_eq g k (i + 1)]
    refine Prod.ext ?_ (by omega)
    simp only [List.range_succ_eq_map, List.map_cons, List.map_map]
    congr 1
    refine List.map_congr_left ?_
    intro a ha
    simp only [Function.comp]
    congr 1
    omega

theorem Neuron.random_eq (g : ℕ → ℚ) (s i : ℕ) :
    Neuron.random g s i = (⟨(List.range s).map fun j => g (i + j), g (i + s)⟩, i + s + 1) := by
  simp [Neuron.random, drawWeights_eq, genRange]

theorem Neuron.random_cursor (g : ℕ → ℚ) (s i : ℕ) :
    (Neuron.random g s i).2 = i + s + 1 := by
  rw [Neuron.random_eq]

theorem mkNeurons_eq (g : ℕ → ℚ) (s : ℕ) : ∀ (k i : ℕ),
    mkNeurons g s k i =
      ((List.range k).map fun m => (Neuron.random g s (i + m * (s + 1))).1,
       i + k * (s + 1))
  | 0, i => by simp [mkNeurons]
  | k + 1, i => by
    simp only [mkNeurons, Neuron.random_cursor, mkNeurons_eq g s k (i + s + 1)]
    refine Prod.ext ?_ (by ring)
    simp only [List.range_succ_eq_map, List.map_cons, List.map_map]
    congr 1
    · congr 1
      simp
    · refine List.map_congr_left ?_
      intro m hm
      simp only [Function.comp, Nat.succ_eq_add_one]
      congr 1
      ring_nf

theorem layerRandom_eq (g : ℕ → ℚ) (s o i : ℕ) :
    Layer.random g s o i =
      (⟨(List.range o).map fun m => (Neuron.random g s (i + m * (s + 1))).1⟩,
       i + o * (s + 1)) := by
  simp [Layer.random, mkNeurons_eq]

theorem Layer.random_shape (g : ℕ → ℚ) (s o i : ℕ) :
    ((Layer.random g s o i).1.neurons.map fun n => n.weights.length) =
      List.replicate o s := by
  simp only [layerRandom_eq, List.map_map]
  refine List.eq_replicate_iff.2 ⟨by simp, ?_⟩
  intro b hb
  simp only [List.mem_map, Function.comp, List.mem_range] at hb
  obtain ⟨m, hm, hb⟩ := hb
  simp [← hb, Neuron.random_eq]

theorem windowPairs_nil : windowPairs [] = [] := rfl

theorem windowPairs_single (a : LayerTopology) : windowPairs [a] = [] := rfl

theorem windowPairs_cons2 (a b : LayerTopology) (t : List LayerTopology) :
    windowPairs (a :: b :: t) = (a, b) :: windowPairs (b :: t) := rfl

theorem windowPairs_length (t : List LayerTopology) :
    (windowPairs t).length = t.length - 1 := by
  simp [windowPairs]

theorem windowPairs_get : ∀ (t : List LayerTopology) (j : ℕ),
    (windowPairs t)[j]? = t[j]?.bind fun a => (t[j+1]?).map fun b => (a, b)
  | [], j => by simp [windowPairs_nil]
  | [a], j => by cases j <;> simp [windowPairs_single]
  | a :: b :: t, 0 => by simp [windowPairs_cons2]
  | a :: b :: t, j + 1 => by
    have ih := windowPairs_get (b :: t) j
    simpa [windowPairs_cons2] using ih

theorem mkLayers_length (g : ℕ → ℚ) : ∀ (ps : List (LayerTopology × LayerTopology)) (i : ℕ),
    (mkLayers g ps i).1.length = ps.length
  | [], _ => rfl
  | p :: ps, i => by simp [mkLayers, mkLayers_length g ps]

theorem mkLayers_shape (g : ℕ → ℚ) :
    ∀ (ps : List (LayerTopology × LayerTopology)) (i j : ℕ)
      (p : LayerTopology × LayerTopology), ps[j]? = some p →
    ∃ l, (mkLayers g ps i).1[j]? = some l ∧
      (l.neurons.map fun n => n.weights.length) =
        List.replicate p.2.input_neurons p.1.output_neurons
  | [], i, j, p => by simp
  | q :: ps, i, 0, p => by
    intro hp
    simp only [List.getElem?_cons_zero, Option.some.injEq] at hp
    subst hp
    exact ⟨_, by simp [mkLayers], Layer.random_shape g _ _ i⟩
  | q :: ps, i, j + 1, p => by
    intro hp
    simp only [List.getElem?_cons_succ] at hp
    obtain ⟨l, hl, hsh⟩ :=
      mkLayers_shape g ps (Layer.random g q.1.output_neurons q.2.input_neurons i).2 j p hp
    exact ⟨l, by simp [mkLayers, hl], hsh⟩

theorem mkLayers_congr (g : ℕ → ℚ) :
    ∀ (ps1 ps2 : List (LayerTopology × LayerTopology)) (i : ℕ),
      ps1.map pairDims = ps2.map pairDims → mkLayers g ps1 i = mkLayers g ps2 i
  | [], [], i, _ => rfl
  | [], p :: ps, i, h => by simp at h
  | p :: ps, [], i, h => by simp at h
  | p1 :: ps1, p2 :: ps2, i, h => by
    simp only [List.map_cons, List.cons.injEq, pairDims, Prod.mk.injEq] at h
    obtain ⟨⟨h1, h2⟩, hps⟩ := h
    simp only [mkLayers, h1, h2, mkLayers_congr g ps1 ps2 _ hps]

theorem propNeurons_spec : ∀ (ns : List Neuron) (inputs : List ℚ),
    (∀ n ∈ ns, (n.propagate inputs).isSome = true) →
    ∃ out, propNeurons ns inputs = some out ∧ out.length = ns.length ∧
      out.map some = ns.map fun n => n.propagate inputs
  | [], inputs, _ => ⟨[], rfl, rfl, rfl⟩
  | n :: ns, inputs, h => by
    have hn := h n (List.mem_cons_self n ns)
    obtain ⟨v, hv⟩ := Option.isSome_iff_exists.1 hn
    obtain ⟨out, ho, hlen, hmap⟩ :=
      propNeurons_spec ns inputs (fun m hm => h m (List.mem_cons_of_mem _ hm))
    exact ⟨v :: out, by simp [propNeurons, hv, ho], by simp [hlen], by simp [hv, hmap]⟩

/-- C1: for equal-length inputs and weights, `Neuron::propagate` returns
`max(0, bias + dot(inputs, weights))`: exactly `0` when the dot product plus
bias is negative, and exactly `dot + bias` otherwise. -/
theorem neuron_propagate_relu (n : Neuron) (inputs : List ℚ)
    (h : inputs.length = n.weights.length) :
    n.propagate inputs =
      some (if dot inputs n.weights + n.bias < 0 then 0
            else dot inputs n.weights + n.bias) ∧
    n.propagate inputs = some (max 0 (n.bias + dot inputs n.weights)) := by
  unfold Neuron.propagate dot
  rw [if_pos h]
  constructor
  · congr 1
    rcases lt_or_le ((List.zipWith (fun x w => x * w) inputs n.weights).sum + n.bias) 0 with hlt | hle
    · rw [if_pos hlt, max_eq_right (by linarith)]
    · rw [if_neg (not_lt.2 hle), max_eq_left (by linarith)]
      ring
  · rw [max_comm]

theorem neuron_propagate_relu_witness :
    inputsT.length = neuronT.weights.length ∧
      (neuronT.propagate inputsT =
        some (if dot inputsT neuronT.weights + neuronT.bias < 0 then 0
              else dot inputsT neuronT.weights + neuronT.bias) ∧
       neuronT.propagate inputsT =
        some (max 0 (neuronT.bias + dot inputsT neuronT.weights))) :=
  ⟨rfl, neuron_propagate_relu neuronT inputsT rfl⟩

/-- C2: `Neuron::propagate` fails (returns `none`, the embedded panic) if
and only if the input length differs from the weight count; under the length
precondition a value is always returned. -/
theorem neuron_propagate_none_iff (n : Neuron) (inputs : List ℚ) :
    (n.propagate inputs = none ↔ inputs.length ≠ n.weights.length) ∧
    ((n.propagate inputs).isSome = true ↔ inputs.length = n.weights.length) := by
  unfold Neuron.propagate
  by_cases h : inputs.length = n.weights.length <;> simp [h]

/-- C3: `Layer::propagate` on an input on which every neuron succeeds
returns a vector with exactly one entry per neuron, in neuron index order,
entry `i` being the `propagate` result of neuron `i` on the same inputs. -/
theorem layer_propagate_fanout (l : Layer) (inputs : List ℚ)
    (h : ∀ n ∈ l.neurons, (n.propagate inputs).isSome = true) :
    ∃ out, l.propagate inputs = some out ∧ out.length = l.neurons.length ∧
      out.map some = l.neurons.map fun n => n.propagate inputs :=
  propNeurons_spec l.neurons inputs h

theorem layer_propagate_fanout_witness :
    ∃ out, layerT.propagate inputsT = some out ∧
      out.length = layerT.neurons.length ∧
      out.map some = layerT.neurons.map fun n => n.propagate inputsT :=
  layer_propagate_fanout layerT inputsT (by decide)

/-- C4: `Network::random` on a topology of length at least 2 builds exactly
`length - 1` layers; layer `j` has `topology[j+1].input_neurons` neurons,
each with `topology[j].output_neurons` weights. -/
theorem network_random_dims (g : ℕ → ℚ) (t : List LayerTopology) (i j : ℕ)
    (a b : LayerTopology) (_h2 : 2 ≤ t.length)
    (ha : t[j]? = some a) (hb : t[j + 1]? = some b) :
    (Network.random g t i).1.layers.length = t.length - 1 ∧
    ∃ l, (Network.random g t i).1.layers[j]? = some l ∧
      l.neurons.length = b.input_neurons ∧
      (l.neurons.map fun n => n.weights.length) =
        List.replicate b.input_neurons a.output_neurons := by
  constructor
  · simp [Network.random, mkLayers_length, windowPairs_length]
  · have hw : (windowPairs t)[j]? = some (a, b) := by
      rw [windowPairs_get, ha, hb]
      rfl
    obtain ⟨l, hl, hsh⟩ := mkLayers_shape g (windowPairs t) i j (a, b) hw
    refine ⟨l, by simpa [Network.random] using hl, ?_, hsh⟩
    have := congrArg List.length hsh
    simpa using this

theorem network_random_dims_witness :
    (2 ≤ ([topA, topB] : List LayerTopology).length) ∧
      ((Network.random gW [topA, topB] 0).1.layers.length =
          ([topA, topB] : List LayerTopology).length - 1 ∧
       ∃ l, (Network.random gW [topA, topB] 0).1.layers[0]? = some l ∧
         l.neurons.length = topB.input_neurons ∧
         (l.neurons.map fun n => n.weights.length) =
           List.replicate topB.input_neurons topA.output_neurons) :=
  ⟨by decide, network_random_dims gW [topA, topB] 0 0 topA topB (by decide) rfl rfl⟩

/-- C5: `Network::random` on a topology of length 0 or 1 succeeds, returns
a network with zero layers, and consumes no draws (the cursor is unchanged). -/
theorem network_random_short_topology (g : ℕ → ℚ) (t : List LayerTopology) (i : ℕ)
    (h : t.length ≤ 1) : Network.random g t i = (⟨[]⟩, i) := by
  cases t with
  | nil => rfl
  | cons a t2 =>
    cases t2 with
    | nil => rfl
    | cons b t3 => simp at h

theorem network_random_short_topology_witness :
    Network.random gW [topA] 0 = (⟨[]⟩, 0) :=
  network_random_short_topology gW [topA] 0 (by decide)

/-- C6: `propagate` of a network whose layer sequence is empty returns the
input vector unchanged. -/
theorem network_propagate_empty_identity (inputs : List ℚ) :
    Network.propagate (Network.new []) inputs = some inputs := rfl

/-- C7: `Network::propagate` is the left-to-right composition of the layer
propagations: the output of the head layer is the input of the remaining
layers, and the overall result is the output of the last layer. -/
theorem network_propagate_step (l : Layer) (ls : List Layer) (inputs mid : List ℚ)
    (h : l.propagate inputs = some mid) :
    Network.propagate (Network.new (l :: ls)) inputs =
      Network.propagate (Network.new ls) mid := by
  simp [Network.propagate, Network.new, propLayers, h]

theorem network_propagate_step_witness :
    Network.propagate (Network.new [layerT]) inputsT =
      Network.propagate (Network.new []) [23/20] :=
  network_propagate_step layerT [] inputsT [23/20]
    (by
      show propNeurons [neuronT] inputsT = some [23/20]
      simp only [propNeurons, Neuron.propagate, neuronT, inputsT]
      norm_num)

/-- C8: randomized construction is deterministic in the randomness source
and consumes it in a fixed order: each neuron draws its weights in index
order and then its bias (so `Neuron::random` at cursor `i` with `s` weights
reads draws `i, ..., i+s-1` for the weights and draw `i+s` for the bias),
neuron `m` of a layer starts at cursor `i + m*(s+1)` (the draws of
neuron 0 complete before those of neuron 1), and layer 0 of a network
completes before layer 1 begins. -/
theorem random_deterministic_draw_order (g1 g2 g : ℕ → ℚ)
    (h : ∀ k, g1 k = g2 k) (t rest : List LayerTopology) (i s o m : ℕ)
    (a b : LayerTopology) :
    Network.random g1 t i = Network.random g2 t i ∧
    Neuron.random g s i =
      (⟨(List.range s).map fun j => g (i + j), g (i + s)⟩, i + s + 1) ∧
    (Layer.random g s o i).1.neurons[m]? =
      (if m < o then some (Neuron.random g s (i + m * (s + 1))).1 else none) ∧
    (Layer.random g s o i).2 = i + o * (s + 1) ∧
    Network.random g (a :: b :: rest) i =
      (⟨(Layer.random g a.output_neurons b.input_neurons i).1 ::
          (Network.random g (b :: rest)
            (Layer.random g a.output_neurons b.input_neurons i).2).1.layers⟩,
        (Network.random g (b :: rest)
          (Layer.random g a.output_neurons b.input_neurons i).2).2) := by
  have hg : g1 = g2 := funext h
  subst hg
  refine ⟨rfl, Neuron.random_eq g s i, ?_, by rw [layerRandom_eq], ?_⟩
  · rw [layerRandom_eq]
    by_cases hm : m < o
    · simp [hm]
    · rw [if_neg hm]
      apply List.getElem?_eq_none
      simpa using Nat.not_lt.1 hm
  · simp only [Network.random, windowPairs, List.tail_cons, List.zip_cons_cons, mkLayers]
    rfl

theorem random_deterministic_draw_order_witness :
    Network.random gW [topA, topB] 0 = Network.random gW [topA, topB] 0 ∧
    Neuron.random gW 2 0 =
      (⟨(List.range 2).map fun j => gW (0 + j), gW (0 + 2)⟩, 0 + 2 + 1) ∧
    (Layer.random gW 2 3 0).1.neurons[1]? =
      (if 1 < 3 then some (Neuron.random gW 2 (0 + 1 * (2 + 1))).1 else none) ∧
    (Layer.random gW 2 3 0).2 = 0 + 3 * (2 + 1) ∧
    Network.random gW (topA :: topB :: []) 0 =
      (⟨(Layer.random gW topA.output_neurons topB.input_neurons 0).1 ::
          (Network.random gW (topB :: [])
            (Layer.random gW topA.output_neurons topB.input_neurons 0).2).1.layers⟩,
        (Network.random gW (topB :: [])
          (Layer.random gW topA.output_neurons topB.input_neurons 0).2).2) :=
  random_deterministic_draw_order gW gW gW (fun _ => rfl) [topA, topB] [] 0 2 3 1 topA topB

/-- C9: `Network::random` never reads `input_neurons` of the first topology
entry or `output_neurons` of the last entry: same-length topologies equal
everywhere else produce identical networks with identical cursors. -/
theorem network_random_ignores_outer_dims (g : ℕ → ℚ) (i : ℕ)
    (t1 t2 : List LayerTopology) (hlen : t1.length = t2.length)
    (hin : ∀ j, j ≠ 0 →
      (t1[j]?).map LayerTopology.input_neurons =
        (t2[j]?).map LayerTopology.input_neurons)
    (hout : ∀ j, j + 1 ≠ t1.length →
      (t1[j]?).map LayerTopology.output_neurons =
        (t2[j]?).map LayerTopology.output_neurons) :
    Network.random g t1 i = Network.random g t2 i := by
  have hmap : (windowPairs t1).map pairDims = (windowPairs t2).map pairDims := by
    apply List.ext_getElem?
    intro j
    rw [List.getElem?_map, List.getElem?_map, windowPairs_get, windowPairs_get]
    by_cases hlt : j + 1 < t1.length
    · have h1 : j < t1.length := by omega
      have h1' : j < t2.length := by omega
      have h2 : j + 1 < t2.length := by omega
      rw [List.getElem?_eq_getElem h1, List.getElem?_eq_getElem hlt,
        List.getElem?_eq_getElem h1', List.getElem?_eq_getElem h2]
      have e1 : t1[j].output_neurons = t2[j].output_neurons := by
        have hj := hout j (by omega)
        rw [List.getElem?_eq_getElem h1, List.getElem?_eq_getElem h1'] at hj
        simpa using hj
      have e2 : t1[j + 1].input_neurons = t2[j + 1].input_neurons := by
        have hj := hin (j + 1) (by omega)
        rw [List.getElem?_eq_getElem hlt, List.getElem?_eq_getElem h2] at hj
        simpa using hj
      simp [pairDims, e1, e2]
    · have e1 : t1[j + 1]? = none := List.getElem?_eq_none (by omega)
      have e2 : t2[j + 1]? = none := List.getElem?_eq_none (by omega)
      rw [e1, e2]
      cases h1 : t1[j]? <;> cases h2 : t2[j]? <;> simp
  unfold Network.random
  rw [mkLayers_congr g (windowPairs t1) (windowPairs t2) i hmap]

theorem network_random_ignores_outer_dims_witness :
    Network.random gW t1W 0 = Network.random gW t2W 0 :=
  network_random_ignores_outer_dims gW 0 t1W t2W rfl
    (by
      intro j hj
      rcases j with _ | (_ | k)
      · exact absurd rfl hj
      · rfl
      · rfl)
    (by
      intro j hj
      rcases j with _ | (_ | k)
      · rfl
      · exact absurd rfl hj
      · rfl)

/-- C10: `Neuron::random` with input size 0 yields an empty weight vector
and consumes exactly one draw (the bias, the draw under the cursor); `propagate` of that
neuron succeeds only on the empty input vector, returning
`max(0, bias)`. -/
theorem neuron_random_zero_input (g : ℕ → ℚ) (i : ℕ) (inputs : List ℚ) (v : ℚ)
    (h : (Neuron.random g 0 i).1.propagate inputs = some v) :
    Neuron.random g 0 i = (⟨[], g i⟩, i + 1) ∧ inputs = [] ∧ v = max 0 (g i) := by
  have he : Neuron.random g 0 i = (⟨[], g i⟩, i + 1) := by
    simp [Neuron.random_eq]
  rw [he] at h
  cases inputs with
  | nil =>
    refine ⟨he, rfl, ?_⟩
    have hv : (⟨[], g i⟩ : Neuron).propagate [] = some (max (g i + 0) 0) := rfl
    rw [hv, Option.some.injEq] at h
    rw [← h, max_comm, add_zero]
  | cons x xs =>
    simp [Neuron.propagate] at h

theorem neuron_random_zero_input_witness :
    Neuron.random gW 0 0 = (⟨[], gW 0⟩, 0 + 1) ∧ ([] : List ℚ) = [] ∧
      (max (gW 0 + 0) 0 : ℚ) = max 0 (gW 0) :=
  neuron_random_zero_input gW 0 [] (max (gW 0 + 0) 0) rfl
